import Mathlib

/-!
Verification development for the mongorph query-language front end
(`src/lib.rs`): a character-level tokenizer, a recursive-descent parser
for `match(...)` statements over conditions and logical groups, and a
lowering of the resulting AST to an MQL aggregation string.

The Rust code is shallowly embedded:
* `tokenize` panics on an unexpected character or malformed number; the
  embedding returns `Option`, with `none` for the panic.  The tokenizer
  processes one lexeme per loop iteration, so a fuel budget of one unit
  per remaining character is always sufficient.
* Numeric literals are `f64` in Rust; the embedding carries the lexeme
  text (Rust accepts exactly the collected digit-and-dot lexemes with at
  most one dot, which is the check `validNum` performs).
* `char::is_alphanumeric` / `char::is_numeric` are embedded as the ASCII
  classifiers `Char.isAlphanum` / `Char.isDigit`.
* The mutually recursive `parse_condition` / `parse_logical_op` pair and
  the sibling loop inside `parse_logical_op` become a single fuel-indexed
  function `parseC` dispatching on a mode tag.  `parse_logical_op`'s
  `panic!` branch and `ast2mql`'s `panic!` are a distinguished outcome
  (`PErr.panicked`), and fuel exhaustion is `PErr.fuel`, distinct from
  every `ParseError` the Rust code can produce.
-/

namespace Mongorph

/-- `Comparator` from src/lib.rs. -/
inductive Comparator where
  | GTE | GT | EQ | NEQ | LT | LTE
deriving DecidableEq, Repr

/-- `ConditionalOperator` from src/lib.rs. -/
inductive ConditionalOperator where
  | AND | OR
deriving DecidableEq, Repr

/-- `TokenT` from src/lib.rs; numbers carry their lexeme text. -/
inductive TokenT where
  | Literal (s : String)
  | Number (s : String)
  | Comparator (c : Mongorph.Comparator)
  | OpenParen
  | CloseParen
  | Dot
  | Match
  | ConditionalOperator (op : Mongorph.ConditionalOperator)
deriving DecidableEq, Repr

/-- `Token` from src/lib.rs: a token kind plus recorded source offset. -/
structure Token where
  ty : TokenT
  idx : Nat
deriving DecidableEq, Repr

/-- `ASTNode` from src/lib.rs (boxes dropped). -/
inductive ASTNode where
  | Literal (s : String)
  | Number (s : String)
  | Condition (op : Mongorph.Comparator) (left right : ASTNode)
  | ConditionalOperator (op : Mongorph.ConditionalOperator) (conditions : List ASTNode)
  | Match (inner : ASTNode)
  | Unexpected
deriving Repr

/-- `ParseErrorT` from src/lib.rs. -/
inductive ParseErrorT where
  | RHSofComparatorMustBeLiteralOrNumber
  | NoDotBetweenFns
  | InvalidBinopStructure
  | Unexpected
  | UnmatchedParenthesis
  | MissingComparator
  | MissingOpenParen
  | EndOfTokenStream
deriving DecidableEq, Repr

/-- `ParseError` from src/lib.rs. -/
structure ParseError where
  ty : ParseErrorT
  cursor : Nat
deriving DecidableEq, Repr

/-- Outcome tag for the embedded fallible functions: a Rust `ParseError`,
a Rust `panic!`, or exhaustion of the embedding's fuel budget. -/
inductive PErr where
  | perr (e : ParseError)
  | panicked
  | fuel
deriving DecidableEq, Repr

/-- `MonGod` from src/lib.rs: the source text and the stored AST. -/
structure MonGod where
  s : List Char
  ast : List ASTNode

/-- Whitespace characters skipped by `tokenize`. -/
def wsChar (c : Char) : Bool :=
  c = ' ' || c = '\t' || c = '\n'

/-- Characters that can start an identifier (`'a'..='z' | 'A'..='Z' | '_'`). -/
def identStartChar (c : Char) : Bool :=
  c.isAlpha || c = '_'

/-- Characters that continue an identifier (`is_alphanumeric() || '_' || '.'`). -/
def identChar (c : Char) : Bool :=
  c.isAlphanum || c = '_' || c = '.'

/-- Characters that continue a number (`is_numeric() || '.'`). -/
def numChar (c : Char) : Bool :=
  c.isDigit || c = '.'

/-- One iteration of `MonGod::tokenize`'s `while` loop, on the current
character `c`, the remaining characters `cs` and the running offset
`idx`; `next` continues the loop.  The recorded `idx` bookkeeping copies
the source exactly; note that the lone `=` and lone `!` branches consume
a character without advancing `idx`, as the Rust does. -/
def tokenizeStep (next : List Char → Nat → Option (List Token))
    (c : Char) (cs : List Char) (idx : Nat) : Option (List Token) :=
  if wsChar c then
    next cs (idx + 1)
  else if c = '>' then
    match cs with
    | '=' :: cs2 => Option.map (List.cons ⟨.Comparator .GTE, idx⟩) (next cs2 (idx + 2))
    | _ => Option.map (List.cons ⟨.Comparator .GT, idx⟩) (next cs (idx + 1))
  else if c = '<' then
    match cs with
    | '=' :: cs2 => Option.map (List.cons ⟨.Comparator .LTE, idx⟩) (next cs2 (idx + 2))
    | _ => Option.map (List.cons ⟨.Comparator .LT, idx⟩) (next cs (idx + 1))
  else if c = '=' then
    match cs with
    | '=' :: cs2 => Option.map (List.cons ⟨.Comparator .EQ, idx⟩) (next cs2 (idx + 2))
    | _ => next cs idx
  else if c = '!' then
    match cs with
    | '=' :: cs2 => Option.map (List.cons ⟨.Comparator .NEQ, idx⟩) (next cs2 (idx + 2))
    | _ => next cs idx
  else if c = '&' then
    Option.map (List.cons ⟨.ConditionalOperator .AND, idx⟩) (next cs (idx + 1))
  else if c = '|' then
    Option.map (List.cons ⟨.ConditionalOperator .OR, idx⟩) (next cs (idx + 1))
  else if c = '(' then
    Option.map (List.cons ⟨.OpenParen, idx⟩) (next cs (idx + 1))
  else if c = ')' then
    Option.map (List.cons ⟨.CloseParen, idx⟩) (next cs (idx + 1))
  else if c = '.' then
    Option.map (List.cons ⟨.Dot, idx⟩) (next cs (idx + 1))
  else if identStartChar c then
    if (c :: cs).takeWhile identChar = "match".data then
      Option.map (List.cons ⟨.Match, idx⟩) (next ((c :: cs).dropWhile identChar) (idx + 5))
    else
      Option.map (List.cons ⟨.Literal (String.mk ((c :: cs).takeWhile identChar)), idx⟩)
        (next ((c :: cs).dropWhile identChar) (idx + ((c :: cs).takeWhile identChar).length))
  else if c.isDigit then
    if ((c :: cs).takeWhile numChar).count '.' ≤ 1 then
      Option.map (List.cons ⟨.Number (String.mk ((c :: cs).takeWhile numChar)), idx⟩)
        (next ((c :: cs).dropWhile numChar) (idx + ((c :: cs).takeWhile numChar).length))
    else none
  else none

/-- `MonGod::tokenize`'s loop, one fuel unit per iteration. -/
def tokenizeAux : Nat → List Char → Nat → Option (List Token)
  | _, [], _ => some []
  | 0, _ :: _, _ => none
  | f + 1, c :: cs, idx => tokenizeStep (tokenizeAux f) c cs idx

/-- `MonGod::tokenize` at the top level: each loop iteration consumes at
least one character, so `cs.length` units of fuel always suffice. -/
def tokenize (cs : List Char) : Option (List Token) :=
  tokenizeAux cs.length cs 0

/-- The source characters a token kind stands for (its lexeme). -/
def lexChars : TokenT → List Char
  | .Literal s => s.data
  | .Number s => s.data
  | .Comparator .GTE => ['>', '=']
  | .Comparator .GT => ['>']
  | .Comparator .EQ => ['=', '=']
  | .Comparator .NEQ => ['!', '=']
  | .Comparator .LT => ['<']
  | .Comparator .LTE => ['<', '=']
  | .OpenParen => ['(']
  | .CloseParen => [')']
  | .Dot => ['.']
  | .Match => ['m', 'a', 't', 'c', 'h']
  | .ConditionalOperator .AND => ['&']
  | .ConditionalOperator .OR => ['|']

/-- One scan step of drop-freeness: `false` exactly when the scanner's
silent-drop branch for a lone `=` or lone `!` fires here; mirrors the
branch structure of `tokenizeStep`. -/
def dropFreeStep (next : List Char → Bool) (c : Char) (cs : List Char) : Bool :=
  if wsChar c then
    next cs
  else if c = '>' then
    match cs with
    | '=' :: cs2 => next cs2
    | _ => next cs
  else if c = '<' then
    match cs with
    | '=' :: cs2 => next cs2
    | _ => next cs
  else if c = '=' then
    match cs with
    | '=' :: cs2 => next cs2
    | _ => false
  else if c = '!' then
    match cs with
    | '=' :: cs2 => next cs2
    | _ => false
  else if c = '&' then next cs
  else if c = '|' then next cs
  else if c = '(' then next cs
  else if c = ')' then next cs
  else if c = '.' then next cs
  else if identStartChar c then
    next ((c :: cs).dropWhile identChar)
  else if c.isDigit then
    next ((c :: cs).dropWhile numChar)
  else true

/-- `True` iff scanning `cs` never takes the silent-drop branch. -/
def dropFreeAux : Nat → List Char → Bool
  | _, [] => true
  | 0, _ :: _ => true
  | f + 1, c :: cs => dropFreeStep (dropFreeAux f) c cs

/-- Drop-freeness of a whole source text. -/
def dropFree (cs : List Char) : Bool :=
  dropFreeAux cs.length cs

/-- Call mode for the embedded recursive-descent core: `cond` is
`MonGod::parse_condition`, `logop` is the entry of
`MonGod::parse_logical_op`, and `loop op acc` is the sibling loop inside
`parse_logical_op` with operator `op` and the conditions collected so
far. -/
inductive PMode where
  | cond
  | logop
  | loop (op : Mongorph.ConditionalOperator) (acc : List ASTNode)

/-- One layer of the embedded recursive-descent core; `next` performs
the recursive calls (`parse_condition`, `parse_logical_op`, and the
sibling loop).  Every cursor state is an explicit token list. -/
def parseCStep (next : PMode → List Token → Except PErr (ASTNode × List Token)) :
    PMode → List Token → Except PErr (ASTNode × List Token)
  | .cond, ts =>
    match ts with
    | ⟨.ConditionalOperator _, _⟩ :: _ => next .logop ts
    | ⟨.Literal s, _⟩ :: rest => .ok (.Literal s, rest)
    | ⟨.Number s, _⟩ :: rest => .ok (.Number s, rest)
    | ⟨.OpenParen, _⟩ :: rest =>
      match next .cond rest with
      | .error e => .error e
      | .ok (left, r1) =>
        match r1 with
        | ⟨.Comparator cmp, _⟩ :: r2 =>
          match next .cond r2 with
          | .error e => .error e
          | .ok (right, r3) =>
            match r3 with
            | ⟨.CloseParen, _⟩ :: r4 => .ok (.Condition cmp left right, r4)
            | ⟨_, j⟩ :: _ => .error (.perr ⟨.UnmatchedParenthesis, j⟩)
            | [] => .error (.perr ⟨.EndOfTokenStream, 0⟩)
        | ⟨_, j⟩ :: _ => .error (.perr ⟨.MissingComparator, j⟩)
        | [] => .error (.perr ⟨.EndOfTokenStream, 0⟩)
    | _ => .error (.perr ⟨.Unexpected, 0⟩)
  | .logop, ts =>
    match ts with
    | ⟨.ConditionalOperator op, _⟩ :: rest =>
      match rest with
      | ⟨.OpenParen, _⟩ :: r2 => next (.loop op []) r2
      | ⟨_, j⟩ :: _ => .error (.perr ⟨.MissingOpenParen, j⟩)
      | [] => .error (.perr ⟨.EndOfTokenStream, 0⟩)
    | _ => .error .panicked
  | .loop op acc, ts =>
    match next .cond ts with
    | .error e => .error e
    | .ok (c, r1) =>
      match r1 with
      | ⟨.CloseParen, _⟩ :: r2 => .ok (.ConditionalOperator op (acc ++ [c]), r2)
      | ⟨.OpenParen, _⟩ :: r2 =>
        match r2 with
        | ⟨.ConditionalOperator _, _⟩ :: _ => next (.loop op (acc ++ [c])) r2
        | _ => next (.loop op (acc ++ [c])) r1
      | ⟨_, j⟩ :: _ => .error (.perr ⟨.Unexpected, j⟩)
      | [] => .error (.perr ⟨.EndOfTokenStream, 0⟩)

/-- `MonGod::parse_condition` / `MonGod::parse_logical_op`, fuel-indexed;
each recursive call burns one unit of fuel. -/
def parseC : Nat → PMode → List Token → Except PErr (ASTNode × List Token)
  | 0, _, _ => .error .fuel
  | f + 1, mode, ts => parseCStep (parseC f) mode ts

/-- `MonGod::parse_match`: requires the `match` keyword and an open
parenthesis, parses one condition, and requires a closing parenthesis. -/
def parseMatch (f : Nat) (ts : List Token) : Except PErr (ASTNode × List Token) :=
  match ts with
  | ⟨.Match, i⟩ :: rest =>
    match rest with
    | ⟨.OpenParen, _⟩ :: r2 =>
      match parseC f .cond r2 with
      | .error e => .error e
      | .ok (cond, r3) =>
        match r3 with
        | ⟨.CloseParen, _⟩ :: r4 => .ok (.Match cond, r4)
        | ⟨_, j⟩ :: _ => .error (.perr ⟨.UnmatchedParenthesis, j⟩)
        | [] => .error (.perr ⟨.EndOfTokenStream, 0⟩)
    | _ => .error (.perr ⟨.MissingOpenParen, i⟩)
  | ⟨_, i⟩ :: _ => .error (.perr ⟨.Unexpected, i⟩)
  | [] => .error (.perr ⟨.EndOfTokenStream, 0⟩)

/-- One iteration of the statement loop of `MonGod::parse_tokens`: while
tokens remain, the next one must be the `match` keyword, and one
`match(...)` statement is parsed and appended; `next` continues the
loop. -/
def parseProgramStep (f : Nat) (next : List Token → Except PErr (List ASTNode))
    (ts : List Token) : Except PErr (List ASTNode) :=
  match ts with
  | [] => .ok []
  | t :: _ =>
    match t.ty with
    | .Match =>
      match parseMatch f ts with
      | .error e => .error e
      | .ok (node, rest) =>
        match next rest with
        | .error e => .error e
        | .ok nodes => .ok (node :: nodes)
    | _ => .error (.perr ⟨.Unexpected, t.idx⟩)

/-- The statement loop of `MonGod::parse_tokens`, fuel-indexed. -/
def parseProgramAux : Nat → List Token → Except PErr (List ASTNode)
  | 0, _ => .error .fuel
  | f + 1, ts => parseProgramStep f (parseProgramAux f) ts

/-- Fuel budget for a parse of `ts`: each recursive call of `parseC` /
`parseProgramAux` either consumes a token first or moves to a mode that
does, so three units per token plus slack is always enough. -/
def pFuel (ts : List Token) : Nat :=
  3 * ts.length + 3

/-- `MonGod::parse_tokens`: on success the stored AST is replaced by the
freshly built node list; on error the structure is returned untouched. -/
def parse_tokens (m : MonGod) (ts : List Token) : MonGod × Except PErr Unit :=
  match parseProgramAux (pFuel ts) ts with
  | .error e => (m, .error e)
  | .ok nodes => ({ m with ast := nodes }, .ok ())

/-- `MonGod::build` as a pure function from source text to program. -/
def build (cs : List Char) : Except PErr (List ASTNode) :=
  match tokenize cs with
  | none => .error .panicked
  | some ts => parseProgramAux (pFuel ts) ts

/-- `MonGod::build` acting on the structure, via `parse_tokens`. -/
def buildM (m : MonGod) : MonGod × Except PErr Unit :=
  match tokenize m.s with
  | none => (m, .error .panicked)
  | some ts => parse_tokens m ts

/-- The comparator-to-MQL-operator table inside `MonGod::ast2mql`. -/
def mqlOp : Mongorph.Comparator → String
  | .GTE => "$gte"
  | .GT => "$gt"
  | .EQ => "$eq"
  | .NEQ => "$neq"
  | .LT => "$lt"
  | .LTE => "$lte"

/-- The text `MonGod::ast2mql` appends for the inner value of one
`Match` node: a filter clause when it is a `Condition` over two
`Literal`s, nothing otherwise. -/
def nodeClause : ASTNode → String
  | .Condition op (.Literal l) (.Literal r) =>
    "\x7b $match: \x7b " ++ l ++ ": \x7b " ++ mqlOp op ++ ": " ++ r ++ " \x7d \x7d \x7d,"
  | _ => ""

/-- The body of `MonGod::ast2mql`'s loop over the stored nodes; `none`
is the `panic!("Unexpected node type!")` on a non-`Match` node. -/
def ast2mqlAux : List ASTNode → Option String
  | [] => some ""
  | .Match inner :: rest => Option.map (fun s => nodeClause inner ++ s) (ast2mqlAux rest)
  | .Literal _ :: _ => none
  | .Number _ :: _ => none
  | .Condition _ _ _ :: _ => none
  | .ConditionalOperator _ _ :: _ => none
  | .Unexpected :: _ => none

/-- `MonGod::ast2mql` on a node list: header, one (possibly empty)
clause per node, footer. -/
def ast2mql (ast : List ASTNode) : Option String :=
  Option.map (fun mid => "db.collection.aggregate\x7b[" ++ mid ++ "]\x7d") (ast2mqlAux ast)

/-- `MonGod::ast2mql` on the stored program. -/
def MonGod.ast2mql (m : MonGod) : Option String :=
  Mongorph.ast2mql m.ast

/-- Concatenation of a list of strings, in order. -/
def sconcat : List String → String
  | [] => ""
  | a :: l => a ++ sconcat l

/-- The comparator-to-operator table as the specification states it
(GTE→"$gte", GT→"$gt", EQ→"$eq", NEQ→"$neq", LT→"$lt", LTE→"$lte"),
kept separate from `mqlOp` so the lowering claim compares the code's
table against the spec's. -/
def specOpSymbol : Mongorph.Comparator → String
  | .GTE => "$gte"
  | .GT => "$gt"
  | .EQ => "$eq"
  | .NEQ => "$neq"
  | .LT => "$lt"
  | .LTE => "$lte"

/-- The filter clause the specification describes for one conforming
`Match` node. -/
def specClause (l : String) (op : Mongorph.Comparator) (r : String) : String :=
  "\x7b $match: \x7b " ++ l ++ ": \x7b " ++ specOpSymbol op ++ ": " ++ r ++ " \x7d \x7d \x7d,"

/-- Is a `Match` inner value a `Condition` over two `Literal`s (the only
shape `ast2mql` lowers)? -/
def conformingInner : ASTNode → Bool
  | .Condition _ (.Literal _) (.Literal _) => true
  | _ => false

/-- Is a node a `Condition` or a `LogicalGroup` (`ConditionalOperator`)? -/
def condOrGroup : ASTNode → Bool
  | .Condition _ _ _ => true
  | .ConditionalOperator _ _ => true
  | _ => false

/-- The shapes `parse_condition` can actually return: anything except a
nested `Match` or the `Unexpected` placeholder. -/
def innerShapeOK : ASTNode → Bool
  | .Condition _ _ _ => true
  | .ConditionalOperator _ _ => true
  | .Literal _ => true
  | .Number _ => true
  | .Match _ => false
  | .Unexpected => false

/-- A well-formed identifier lexeme: starts with a letter or underscore
and continues with alphanumerics, underscores or dots. -/
def identLex (l : List Char) : Bool :=
  match l with
  | [] => false
  | c :: _ => identStartChar c && l.all identChar

/-- A well-formed numeric lexeme: starts with a digit, continues with
digits or dots, and has at most one dot (so Rust's `f64` parse accepts
it). -/
def numLex (l : List Char) : Bool :=
  match l with
  | [] => false
  | c :: _ => c.isDigit && l.all numChar && decide (l.count '.' ≤ 1)

/-- The spelling of a comparator. -/
def cmpLex (c : Mongorph.Comparator) : List Char :=
  lexChars (.Comparator c)

/-- The source text `match((L CMP R))` for lexemes `L`, `R` and a
comparator spelling `CMP`. -/
def inputC1 (l : List Char) (c : Mongorph.Comparator) (r : List Char) : List Char :=
  'm' :: 'a' :: 't' :: 'c' :: 'h' :: '(' :: '(' ::
    (l ++ ' ' :: (cmpLex c ++ ' ' :: (r ++ [')', ')'])))

/-- The token's recorded offset points at an occurrence of its lexeme in
the source text. -/
def lexAt (cs : List Char) (t : Token) : Prop :=
  (cs.drop t.idx).take (lexChars t.ty).length = lexChars t.ty

/-- Offsets are non-decreasing along a token sequence. -/
def idxSorted (ts : List Token) : Prop :=
  List.Chain' (fun a b => a.idx ≤ b.idx) ts

/-- The text one top-level node contributes to `ast2mql`'s output (only
meaningful for `Match` nodes; the loop panics on anything else). -/
def matchClause : ASTNode → String
  | .Match inner => nodeClause inner
  | _ => ""

/-- The node shape each parser mode guarantees for its result: the
condition parser never returns a `Match` or `Unexpected` node, and the
logical-group entry and loop only return `ConditionalOperator` nodes. -/
def modeShape : PMode → ASTNode → Prop
  | .cond, n => innerShapeOK n = true
  | .logop, n => ∃ op conds, n = ASTNode.ConditionalOperator op conds
  | .loop op _, n => ∃ conds, n = ASTNode.ConditionalOperator op conds

/-!  Theorems.  -/

/-- Claim C1, counterexample: the well-formed input `match(a == b)` of
the form `match(IDENT CMP IDENT)` does not parse successfully; the
parser requires brackets around the comparison and fails with
`UnmatchedParenthesis` at the offset of `==`. -/
theorem claim_C1_cex :
    build "match(a == b)".data = .error (.perr ⟨.UnmatchedParenthesis, 8⟩) := by
  rfl

/-- Claim C2, counterexample: the input the claim names,
`match(AND( (AND( (a==1) (b==2) )) (c==3) ))` written with `&` for AND,
does not parse successfully: the nested group in first-sibling position
is consumed as the left operand of a bracketed comparison and parsing
fails with `MissingComparator` at offset 24. -/
theorem claim_C2_cex :
    build "match(&((&((a==1)(b==2)))(c==3)))".data =
      .error (.perr ⟨.MissingComparator, 24⟩) := by
  rfl

/-- Claim C2 as amended: a nested logical group is accepted as a
non-first sibling inside a logical group; the wrapper bracket before the
nested group is consumed by the lookahead, and its closing bracket then
terminates the sibling list, so the accepted text has one fewer trailing
parenthesis.  The resulting tree nests exactly as claimed:
`AND[Condition c==3, AND[Condition a==1, Condition b==2]]`. -/
theorem claim_C2 :
    build "match(&((c==3)(&((a==1)(b==2))))".data =
      .ok [.Match (.ConditionalOperator .AND
        [.Condition .EQ (.Literal "c") (.Number "3"),
         .ConditionalOperator .AND
           [.Condition .EQ (.Literal "a") (.Number "1"),
            .Condition .EQ (.Literal "b") (.Number "2")]])] := by
  rfl

/-- Claim C3, counterexample: parsing `match(a)` succeeds and stores a
`Match` node whose inner value is the bare `Literal` node `a`, which is
neither a `Condition` nor a `LogicalGroup`. -/
theorem claim_C3_cex :
    build "match(a)".data = .ok [.Match (.Literal "a")] ∧
      condOrGroup (.Literal "a") = false := by
  exact ⟨rfl, rfl⟩

/-- Claim C4: a parse call is atomic with respect to the stored AST.  If
`parse_tokens` reports success the stored AST is replaced by the freshly
built node sequence, and if it reports an error the structure is exactly
what it was before the call. -/
theorem claim_C4 (m : MonGod) (ts : List Token) :
    ((parse_tokens m ts).2 = .ok () →
      ∃ nodes, parseProgramAux (pFuel ts) ts = .ok nodes ∧
        (parse_tokens m ts).1 = { s := m.s, ast := nodes }) ∧
    (∀ e, (parse_tokens m ts).2 = .error e → (parse_tokens m ts).1 = m) := by
  unfold parse_tokens
  cases h : parseProgramAux (pFuel ts) ts with
  | error e => simp
  | ok nodes => exact ⟨fun _ => ⟨nodes, rfl, rfl⟩, fun e he => by simp at he⟩

/-- Claim C4, witness: a successful parse of the empty token stream
replaces a previously stored AST with the empty node list. -/
theorem claim_C4_w :
    ∃ nodes, parseProgramAux (pFuel ([] : List Token)) [] = .ok nodes ∧
      (parse_tokens ⟨['x'], [.Unexpected]⟩ []).1 = { s := ['x'], ast := nodes } :=
  (claim_C4 ⟨['x'], [.Unexpected]⟩ []).1 rfl

/-- Claim C6: if the first token of the tokenized input is not the
`match` keyword, the parse entry point fails with the `Unexpected` error
kind carrying that token's offset, and never succeeds. -/
theorem claim_C6 (cs : List Char) (t : Token) (ts' : List Token)
    (htok : tokenize cs = some (t :: ts')) (hty : t.ty ≠ .Match) :
    build cs = .error (.perr ⟨.Unexpected, t.idx⟩) := by
  unfold build
  rw [htok]
  show parseProgramAux (pFuel (t :: ts')) (t :: ts') = _
  have hf : pFuel (t :: ts') = (3 * ts'.length + 5) + 1 := by
    simp [pFuel]
    omega
  rw [hf]
  obtain ⟨ty, idx⟩ := t
  cases ty <;> simp_all [parseProgramAux, parseProgramStep]

/-- Claim C6, witness: the bare top-level expression `branch == CSE`
fails with `Unexpected` at offset 0. -/
theorem claim_C6_w :
    build "branch == CSE".data = .error (.perr ⟨.Unexpected, 0⟩) :=
  claim_C6 "branch == CSE".data ⟨.Literal "branch", 0⟩
    [⟨.Comparator .EQ, 7⟩, ⟨.Literal "CSE", 10⟩] rfl (by simp)

/-- Claim C8: whatever follows in the source and whatever the running
offset, each of the six comparator spellings is lexed as exactly one
comparator token of the corresponding kind; in particular `>=` and `<=`
are single two-character tokens, never a `GT`/`LT` token with the `=`
lexed separately. -/
theorem claim_C8 (f idx : Nat) (rest : List Char) :
    tokenizeAux (f + 1) ('>' :: '=' :: rest) idx =
      Option.map (List.cons ⟨.Comparator .GTE, idx⟩) (tokenizeAux f rest (idx + 2)) ∧
    tokenizeAux (f + 1) ('<' :: '=' :: rest) idx =
      Option.map (List.cons ⟨.Comparator .LTE, idx⟩) (tokenizeAux f rest (idx + 2)) ∧
    tokenizeAux (f + 1) ('=' :: '=' :: rest) idx =
      Option.map (List.cons ⟨.Comparator .EQ, idx⟩) (tokenizeAux f rest (idx + 2)) ∧
    tokenizeAux (f + 1) ('!' :: '=' :: rest) idx =
      Option.map (List.cons ⟨.Comparator .NEQ, idx⟩) (tokenizeAux f rest (idx + 2)) ∧
    ((∀ d, rest.head? = some d → d ≠ '=') →
      tokenizeAux (f + 1) ('>' :: rest) idx =
        Option.map (List.cons ⟨.Comparator .GT, idx⟩) (tokenizeAux f rest (idx + 1))) ∧
    ((∀ d, rest.head? = some d → d ≠ '=') →
      tokenizeAux (f + 1) ('<' :: rest) idx =
        Option.map (List.cons ⟨.Comparator .LT, idx⟩) (tokenizeAux f rest (idx + 1))) := by
  refine ⟨rfl, rfl, rfl, rfl, ?_, ?_⟩
  · intro h
    rcases rest with _ | ⟨d, rest'⟩
    · rfl
    · have hd : d ≠ '=' := h d rfl
      rw [tokenizeAux]
      simp only [tokenizeStep]
      rw [if_neg (by decide), if_pos (by decide)]
      split
      · rename_i cs2 heq
        rw [List.cons.injEq] at heq
        exact absurd heq.1 hd
      · rfl
  · intro h
    rcases rest with _ | ⟨d, rest'⟩
    · rfl
    · have hd : d ≠ '=' := h d rfl
      rw [tokenizeAux]
      simp only [tokenizeStep]
      rw [if_neg (by decide), if_neg (by decide), if_pos (by decide)]
      split
      · rename_i cs2 heq
        rw [List.cons.injEq] at heq
        exact absurd heq.1 hd
      · rfl

/-- Claim C8, witness: a lone `>` at the end of the input is lexed as a
single `GT` token. -/
theorem claim_C8_w :
    tokenizeAux 1 ['>'] 0 =
      Option.map (List.cons ⟨.Comparator .GT, 0⟩) (tokenizeAux 0 [] 1) :=
  (claim_C8 0 0 []).2.2.2.2.1 (by simp)

/-- The code's operator table agrees with the one the spec states. -/
theorem mqlOp_eq_specOpSymbol (op : Mongorph.Comparator) :
    mqlOp op = specOpSymbol op := by
  cases op <;> rfl

/-- A successful `ast2mql` loop produces the concatenation of one
(possibly empty) clause per node. -/
theorem ast2mqlAux_some (ast : List ASTNode) :
    ∀ mid, ast2mqlAux ast = some mid → mid = sconcat (ast.map matchClause) := by
  induction ast with
  | nil =>
    intro mid h
    simp [ast2mqlAux] at h
    simp [sconcat, h.symm]
  | cons n rest ih =>
    intro mid h
    cases n with
    | Match inner =>
      rw [ast2mqlAux] at h
      obtain ⟨mid', hmid', rfl⟩ := Option.map_eq_some'.mp h
      simp [sconcat, matchClause, ih mid' hmid']
    | Literal s => simp [ast2mqlAux] at h
    | Number s => simp [ast2mqlAux] at h
    | Condition op left right => simp [ast2mqlAux] at h
    | ConditionalOperator op cs => simp [ast2mqlAux] at h
    | Unexpected => simp [ast2mqlAux] at h

/-- If every stored node is a `Match` node, the `ast2mql` loop never
panics and produces the concatenated clauses. -/
theorem ast2mqlAux_of_matches (ast : List ASTNode)
    (h : ∀ n ∈ ast, ∃ inner, n = .Match inner) :
    ast2mqlAux ast = some (sconcat (ast.map matchClause)) := by
  induction ast with
  | nil => rfl
  | cons n rest ih =>
    obtain ⟨inner, rfl⟩ := h n (by simp)
    have hrest := ih (fun n hn => h n (by simp [hn]))
    simp [ast2mqlAux, hrest, sconcat, matchClause]

/-- A non-conforming inner node contributes the empty clause. -/
theorem nodeClause_of_not_conforming (inner : ASTNode)
    (h : conformingInner inner = false) : nodeClause inner = "" := by
  cases inner with
  | Condition op left right =>
    cases left <;> cases right <;> simp_all [nodeClause, conformingInner]
  | Literal s => rfl
  | Number s => rfl
  | ConditionalOperator op cs => rfl
  | Match i => rfl
  | Unexpected => rfl

/-- Claim C9: whenever lowering returns a string, that string is the
fixed header, one clause per stored node, and the fixed footer; and the
clause for any `Match` node whose inner value is a `Condition` over two
`Literal`s is exactly the spec's filter clause: left literal as field
name, right literal as value, and the operator given by the mapping
GTE→$gte, GT→$gt, EQ→$eq, NEQ→$neq, LT→$lt, LTE→$lte. -/
theorem claim_C9 (m : MonGod) (s : String) (h : MonGod.ast2mql m = some s) :
    ∃ cl : List String, cl.length = m.ast.length ∧
      s = "db.collection.aggregate\x7b[" ++ sconcat cl ++ "]\x7d" ∧
      ∀ i op l r,
        m.ast.get? i = some (.Match (.Condition op (.Literal l) (.Literal r))) →
        cl.get? i = some (specClause l op r) := by
  unfold MonGod.ast2mql Mongorph.ast2mql at h
  obtain ⟨mid, hmid, rfl⟩ := Option.map_eq_some'.mp h
  refine ⟨m.ast.map matchClause, by simp, ?_, ?_⟩
  · rw [ast2mqlAux_some m.ast mid hmid]
  · intro i op l r hi
    rw [List.get?_map, hi]
    simp [matchClause, nodeClause, specClause, mqlOp_eq_specOpSymbol]

/-- Claim C9, witness: lowering the parse result of
`match((branch == CSE))` emits exactly one `$eq` clause for field
`branch` and value `CSE`. -/
theorem claim_C9_w :
    ∃ cl : List String,
      cl.length = [ASTNode.Match (.Condition .EQ (.Literal "branch") (.Literal "CSE"))].length ∧
      "db.collection.aggregate\x7b[\x7b $match: \x7b branch: \x7b $eq: CSE \x7d \x7d \x7d,]\x7d" =
        "db.collection.aggregate\x7b[" ++ sconcat cl ++ "]\x7d" ∧
      ∀ i op l r,
        ([ASTNode.Match (.Condition .EQ (.Literal "branch") (.Literal "CSE"))]).get? i =
          some (.Match (.Condition op (.Literal l) (.Literal r))) →
        cl.get? i = some (specClause l op r) :=
  claim_C9 ⟨[], [.Match (.Condition .EQ (.Literal "branch") (.Literal "CSE"))]⟩
    "db.collection.aggregate\x7b[\x7b $match: \x7b branch: \x7b $eq: CSE \x7d \x7d \x7d,]\x7d" rfl

/-- Claim C10: if every top-level stored node is a `Match` node, lowering
returns normally (the panic branch is unreachable), the output is the
header-clauses-footer concatenation (so it starts with
`db.collection.aggregate{[` and ends with `]}`), and every `Match` node
whose inner value is not a `Condition` over two `Literal`s contributes
the empty clause — it is silently dropped. -/
theorem claim_C10 (m : MonGod) (h : ∀ n ∈ m.ast, ∃ inner, n = .Match inner) :
    ∃ s cl, MonGod.ast2mql m = some s ∧ cl.length = m.ast.length ∧
      s = "db.collection.aggregate\x7b[" ++ sconcat cl ++ "]\x7d" ∧
      ∀ i inner, m.ast.get? i = some (.Match inner) → conformingInner inner = false →
        cl.get? i = some "" := by
  refine ⟨_, m.ast.map matchClause, ?_, by simp, rfl, ?_⟩
  · unfold MonGod.ast2mql Mongorph.ast2mql
    rw [ast2mqlAux_of_matches m.ast h]
    rfl
  · intro i inner hi hconf
    rw [List.get?_map, hi]
    simp [matchClause, nodeClause_of_not_conforming inner hconf]

/-- Claim C10, witness: a stored AST holding one `Match` around a
`LogicalGroup` lowers to the bare header and footer, the group clause
being dropped. -/
theorem claim_C10_w :
    ∃ s cl, MonGod.ast2mql ⟨[], [.Match (.ConditionalOperator .AND [])]⟩ = some s ∧
      cl.length = [ASTNode.Match (.ConditionalOperator .AND [])].length ∧
      s = "db.collection.aggregate\x7b[" ++ sconcat cl ++ "]\x7d" ∧
      ∀ i inner,
        ([ASTNode.Match (.ConditionalOperator .AND [])]).get? i = some (.Match inner) →
        conformingInner inner = false → cl.get? i = some "" :=
  claim_C10 ⟨[], [.Match (.ConditionalOperator .AND [])]⟩
    (by intro n hn; rw [List.mem_singleton] at hn; exact ⟨_, hn⟩)

/-- `parse_condition` and `parse_logical_op` only ever return nodes of
the shape their mode promises. -/
theorem parseC_shape (f : Nat) :
    ∀ mode ts n r, parseC f mode ts = .ok (n, r) → modeShape mode n := by
  induction f with
  | zero =>
    intro mode ts n r h
    exact absurd h (by simp [parseC])
  | succ f ih =>
    intro mode ts n r h
    rw [parseC] at h
    cases mode with
    | cond =>
      simp only [parseCStep] at h
      split at h
      · obtain ⟨op, conds, rfl⟩ := ih .logop _ n r h
        simp [modeShape, innerShapeOK]
      · simp only [Except.ok.injEq, Prod.mk.injEq] at h
        obtain ⟨h1, -⟩ := h
        subst h1
        simp [modeShape, innerShapeOK]
      · simp only [Except.ok.injEq, Prod.mk.injEq] at h
        obtain ⟨h1, -⟩ := h
        subst h1
        simp [modeShape, innerShapeOK]
      · repeat' split at h
        all_goals first
          | exact Except.noConfusion h
          | (simp only [Except.ok.injEq, Prod.mk.injEq] at h
             obtain ⟨h1, -⟩ := h
             subst h1
             simp [modeShape, innerShapeOK])
      · exact Except.noConfusion h
    | logop =>
      simp only [parseCStep] at h
      repeat' split at h
      all_goals first
        | exact Except.noConfusion h
        | (obtain ⟨conds, rfl⟩ := ih _ _ n r h
           exact ⟨_, conds, rfl⟩)
    | loop op acc =>
      simp only [parseCStep] at h
      repeat' split at h
      all_goals first
        | exact Except.noConfusion h
        | (obtain ⟨conds, rfl⟩ := ih _ _ n r h
           exact ⟨conds, rfl⟩)
        | (simp only [Except.ok.injEq, Prod.mk.injEq] at h
           obtain ⟨h1, -⟩ := h
           subst h1
           exact ⟨_, rfl⟩)


/-- Inversion of a successful `parse_match`: the tokens started with the
`match` keyword and an open parenthesis, one condition was parsed, and a
closing parenthesis followed it. -/
theorem parseMatch_ok (f : Nat) (ts : List Token) (n : ASTNode) (r : List Token)
    (h : parseMatch f ts = .ok (n, r)) :
    ∃ i j rmid inner k rr, ts = ⟨.Match, i⟩ :: ⟨.OpenParen, j⟩ :: rmid ∧
      parseC f .cond rmid = .ok (inner, ⟨.CloseParen, k⟩ :: rr) ∧
      n = .Match inner ∧ r = rr := by
  unfold parseMatch at h
  repeat' split at h
  all_goals first
    | exact Except.noConfusion h
    | (simp only [Except.ok.injEq, Prod.mk.injEq] at h
       obtain ⟨h1, h2⟩ := h
       subst h1
       subst h2
       exact ⟨_, _, _, _, _, _, rfl, by assumption, rfl, rfl⟩)

/-- A successful `parse_match` returns a `Match` node whose inner value
has one of the condition-parser shapes. -/
theorem parseMatch_shape (f : Nat) (ts : List Token) (n : ASTNode) (r : List Token)
    (h : parseMatch f ts = .ok (n, r)) :
    ∃ inner, n = .Match inner ∧ innerShapeOK inner = true := by
  obtain ⟨i, j, rmid, inner, k, rr, hts, hC, rfl, rfl⟩ := parseMatch_ok f ts n r h
  exact ⟨inner, rfl, parseC_shape f .cond rmid inner _ hC⟩

/-- Every node of a successfully parsed program is a `Match` whose inner
value has one of the condition-parser shapes. -/
theorem parseProgram_shape (f : Nat) :
    ∀ ts ast, parseProgramAux f ts = .ok ast →
      ∀ n ∈ ast, ∃ inner, n = .Match inner ∧ innerShapeOK inner = true := by
  induction f with
  | zero =>
    intro ts ast h
    exact absurd h (by simp [parseProgramAux])
  | succ f ih =>
    intro ts ast h
    rw [parseProgramAux] at h
    unfold parseProgramStep at h
    repeat' split at h
    all_goals first
      | exact Except.noConfusion h
      | (simp only [Except.ok.injEq] at h
         subst h
         intro n hn
         exact absurd hn (List.not_mem_nil n))
      | (simp only [Except.ok.injEq] at h
         subst h
         intro n hn
         rcases List.mem_cons.mp hn with rfl | hn2
         · exact parseMatch_shape f _ n _ (by assumption)
         · exact ih _ _ (by assumption) n hn2)

/-- Claim C3 as amended: on every input on which parsing succeeds, every
node of the resulting program is a `Match` node whose inner value is a
`Condition`, a `LogicalGroup`, a `Literal`, or a `Number`; it is never a
nested `Match` or an `Unexpected` node.  (A bare `Literal`/`Number`
inner value does occur, e.g. for `match(a)`, so the original claim's
exclusion of them fails.) -/
theorem claim_C3 (cs : List Char) (ast : List ASTNode) (h : build cs = .ok ast) :
    ∀ n ∈ ast, ∃ inner, n = .Match inner ∧ innerShapeOK inner = true := by
  unfold build at h
  split at h
  · exact Except.noConfusion h
  · exact parseProgram_shape _ _ ast h

/-- Claim C3, witness: the parse of `match((a == 1))` satisfies the
amended invariant. -/
theorem claim_C3_w :
    ∃ inner, ASTNode.Match (.Condition .EQ (.Literal "a") (.Number "1")) = .Match inner ∧
      innerShapeOK inner = true :=
  claim_C3 "match((a == 1))".data
    [.Match (.Condition .EQ (.Literal "a") (.Number "1"))] rfl
    (.Match (.Condition .EQ (.Literal "a") (.Number "1"))) (by simp)

/-- Claim C7: an input of the form `match(` followed by a condition body
and no closing parenthesis fails with either `UnmatchedParenthesis` or
`EndOfTokenStream`, and never succeeds. -/
theorem claim_C7 (cs : List Char) (i j : Nat) (body : List Token) (node : ASTNode)
    (rest : List Token)
    (htok : tokenize cs = some (⟨.Match, i⟩ :: ⟨.OpenParen, j⟩ :: body))
    (hcond : parseC (3 * (body.length + 2) + 2) .cond body = .ok (node, rest))
    (hnp : ∀ t ∈ rest, t.ty ≠ .CloseParen) :
    ∃ e, build cs = .error (.perr e) ∧
      (e.ty = .UnmatchedParenthesis ∨ e.ty = .EndOfTokenStream) := by
  have h1 : build cs =
      parseProgramAux (pFuel (⟨.Match, i⟩ :: ⟨.OpenParen, j⟩ :: body))
        (⟨.Match, i⟩ :: ⟨.OpenParen, j⟩ :: body) := by
    unfold build
    rw [htok]
  have hf : pFuel (⟨.Match, i⟩ :: ⟨.OpenParen, j⟩ :: body) =
      (3 * (body.length + 2) + 2) + 1 := by
    simp [pFuel]
  rw [hf, parseProgramAux] at h1
  simp only [parseProgramStep, parseMatch, hcond] at h1
  rcases rest with _ | ⟨⟨ty, k⟩, rest2⟩
  · exact ⟨⟨.EndOfTokenStream, 0⟩, by simpa using h1, Or.inr rfl⟩
  · have hty := hnp ⟨ty, k⟩ (by simp)
    cases ty
    case CloseParen => exact absurd rfl hty
    all_goals exact ⟨⟨.UnmatchedParenthesis, k⟩, by simpa using h1, Or.inl rfl⟩

/-- Claim C7, witness: `match(a == 1` fails with an
unmatched-parenthesis or end-of-stream error. -/
theorem claim_C7_w :
    ∃ e, build "match(a == 1".data = .error (.perr e) ∧
      (e.ty = .UnmatchedParenthesis ∨ e.ty = .EndOfTokenStream) :=
  claim_C7 "match(a == 1".data 0 5
    [⟨.Literal "a", 6⟩, ⟨.Comparator .EQ, 8⟩, ⟨.Number "1", 11⟩]
    (.Literal "a") [⟨.Comparator .EQ, 8⟩, ⟨.Number "1", 11⟩] rfl rfl (by decide)

/-- `UInt32` order in terms of the underlying natural number. -/
theorem ule_iff (a b : UInt32) : (a ≤ b) ↔ a.toNat ≤ b.toNat := by
  rw [UInt32.le_def, BitVec.le_def]
  exact Iff.rfl

/-- A digit cannot start an identifier. -/
theorem isDigit_not_identStart (c : Char) (h : c.isDigit = true) :
    identStartChar c = false := by
  have hval : 48 ≤ c.val.toNat ∧ c.val.toNat ≤ 57 := by
    simp only [Char.isDigit, Bool.and_eq_true, decide_eq_true_eq, ge_iff_le, ule_iff] at h
    exact h
  rw [Bool.eq_false_iff]
  intro h2
  simp only [identStartChar, Char.isAlpha, Char.isUpper, Char.isLower, Bool.or_eq_true,
    Bool.and_eq_true, decide_eq_true_eq, ge_iff_le, ule_iff] at h2
  rcases h2 with (⟨h3, h4⟩ | ⟨h3, h4⟩) | h5
  · have h3n : 65 ≤ c.val.toNat := h3
    have h4n : c.val.toNat ≤ 90 := h4
    omega
  · have h3n : 97 ≤ c.val.toNat := h3
    have h4n : c.val.toNat ≤ 122 := h4
    omega
  · subst h5
    exact absurd h (by decide)

/-- An identifier-start character is none of the operator, bracket,
whitespace or dot characters the scanner dispatches on first. -/
theorem identStart_not_special (c : Char) (h : identStartChar c = true) :
    wsChar c = false ∧ c ≠ '>' ∧ c ≠ '<' ∧ c ≠ '=' ∧ c ≠ '!' ∧ c ≠ '&' ∧
      c ≠ '|' ∧ c ≠ '(' ∧ c ≠ ')' ∧ c ≠ '.' := by
  refine ⟨?_, ?_, ?_, ?_, ?_, ?_, ?_, ?_, ?_, ?_⟩
  · rw [Bool.eq_false_iff]
    intro hw
    simp only [wsChar, Bool.or_eq_true, decide_eq_true_eq] at hw
    rcases hw with (rfl | rfl) | rfl <;> exact absurd h (by decide)
  all_goals intro hEq
  all_goals exact absurd (hEq ▸ h) (by decide)

/-- A digit is none of the operator, bracket, whitespace or dot
characters the scanner dispatches on first. -/
theorem isDigit_not_special (c : Char) (h : c.isDigit = true) :
    wsChar c = false ∧ c ≠ '>' ∧ c ≠ '<' ∧ c ≠ '=' ∧ c ≠ '!' ∧ c ≠ '&' ∧
      c ≠ '|' ∧ c ≠ '(' ∧ c ≠ ')' ∧ c ≠ '.' := by
  refine ⟨?_, ?_, ?_, ?_, ?_, ?_, ?_, ?_, ?_, ?_⟩
  · rw [Bool.eq_false_iff]
    intro hw
    simp only [wsChar, Bool.or_eq_true, decide_eq_true_eq] at hw
    rcases hw with (rfl | rfl) | rfl <;> exact absurd h (by decide)
  all_goals intro hEq
  all_goals exact absurd (hEq ▸ h) (by decide)

/-- Splitting a span: if all of `l` satisfies `p` and the head of
`rest` does not, `takeWhile`/`dropWhile` recover `l` and `rest`. -/
theorem takeWhile_append_of (p : Char → Bool) (l rest : List Char)
    (hl : ∀ x ∈ l, p x = true)
    (hr : ∀ d, rest.head? = some d → p d = false) :
    (l ++ rest).takeWhile p = l ∧ (l ++ rest).dropWhile p = rest := by
  induction l with
  | nil =>
    rcases rest with _ | ⟨d, rest2⟩
    · exact ⟨rfl, rfl⟩
    · have hd := hr d rfl
      constructor
      · simp [List.takeWhile_cons, hd]
      · simp [List.dropWhile_cons, hd]
  | cons c l2 ih =>
    have hc : p c = true := hl c (by simp)
    have ih2 := ih (fun x hx => hl x (by simp [hx]))
    constructor
    · simp [List.takeWhile_cons, hc, ih2.1]
    · simp [List.dropWhile_cons, hc, ih2.2]

/-- The scanner lexes a leading identifier lexeme (other than `match`)
into one `Literal` token and advances the offset by its length. -/
theorem tokenizeAux_ident_step (f : Nat) (l rest : List Char) (idx : Nat)
    (hl : identLex l = true) (hm : l ≠ "match".data)
    (hr : ∀ d, rest.head? = some d → identChar d = false) :
    tokenizeAux (f + 1) (l ++ rest) idx =
      Option.map (List.cons ⟨.Literal (String.mk l), idx⟩)
        (tokenizeAux f rest (idx + l.length)) := by
  rcases l with _ | ⟨c, l2⟩
  · exact absurd hl (by simp [identLex])
  · have hl2 : identStartChar c = true ∧ ∀ x ∈ c :: l2, identChar x = true := by
      simp only [identLex, Bool.and_eq_true, List.all_eq_true] at hl
      exact ⟨hl.1, fun x hx => hl.2 x hx⟩
    obtain ⟨hstart, hall⟩ := hl2
    obtain ⟨hws, hgt, hlt, heqc, hbang, hamp, hpipe, hop, hcp, hdot⟩ :=
      identStart_not_special c hstart
    have hspan := takeWhile_append_of identChar (c :: l2) rest hall hr
    simp only [List.cons_append] at hspan
    show tokenizeStep (tokenizeAux f) c (l2 ++ rest) idx = _
    unfold tokenizeStep
    rw [if_neg (by simp [hws]), if_neg hgt, if_neg hlt, if_neg heqc, if_neg hbang,
      if_neg hamp, if_neg hpipe, if_neg hop, if_neg hcp, if_neg hdot, if_pos hstart]
    rw [hspan.1, hspan.2, if_neg hm]

/-- The scanner lexes a leading numeric lexeme into one `Number` token
and advances the offset by its length. -/
theorem tokenizeAux_num_step (f : Nat) (l rest : List Char) (idx : Nat)
    (hl : numLex l = true)
    (hr : ∀ d, rest.head? = some d → numChar d = false) :
    tokenizeAux (f + 1) (l ++ rest) idx =
      Option.map (List.cons ⟨.Number (String.mk l), idx⟩)
        (tokenizeAux f rest (idx + l.length)) := by
  rcases l with _ | ⟨c, l2⟩
  · exact absurd hl (by simp [numLex])
  · have hl2 : c.isDigit = true ∧ (∀ x ∈ c :: l2, numChar x = true) ∧
        (c :: l2).count '.' ≤ 1 := by
      simp only [numLex, Bool.and_eq_true, List.all_eq_true, decide_eq_true_eq] at hl
      exact ⟨hl.1.1, fun x hx => hl.1.2 x hx, hl.2⟩
    obtain ⟨hdig, hall, hcount⟩ := hl2
    obtain ⟨hws, hgt, hlt, heqc, hbang, hamp, hpipe, hop, hcp, hdot⟩ :=
      isDigit_not_special c hdig
    have hnostart := isDigit_not_identStart c hdig
    have hspan := takeWhile_append_of numChar (c :: l2) rest hall hr
    simp only [List.cons_append] at hspan
    show tokenizeStep (tokenizeAux f) c (l2 ++ rest) idx = _
    unfold tokenizeStep
    rw [if_neg (by simp [hws]), if_neg hgt, if_neg hlt, if_neg heqc, if_neg hbang,
      if_neg hamp, if_neg hpipe, if_neg hop, if_neg hcp, if_neg hdot,
      if_neg (by simp [hnostart]), if_pos hdig]
    rw [hspan.1, hspan.2, if_pos hcount]


/-- Parsing the token form of `match((IDENT CMP IDENT))` yields exactly
one `Match(Condition)` node, for any offsets and payloads. -/
theorem parse_tokensC1_ident (f : Nat) (a b c d e g h i : Nat) (ls rs : String)
    (cm : Mongorph.Comparator) :
    parseProgramAux (f + 5)
      [⟨.Match, a⟩, ⟨.OpenParen, b⟩, ⟨.OpenParen, c⟩, ⟨.Literal ls, d⟩,
       ⟨.Comparator cm, e⟩, ⟨.Literal rs, g⟩, ⟨.CloseParen, h⟩, ⟨.CloseParen, i⟩] =
      .ok [.Match (.Condition cm (.Literal ls) (.Literal rs))] := rfl

/-- Parsing the token form of `match((IDENT CMP NUMBER))` yields exactly
one `Match(Condition)` node, for any offsets and payloads. -/
theorem parse_tokensC1_num (f : Nat) (a b c d e g h i : Nat) (ls rs : String)
    (cm : Mongorph.Comparator) :
    parseProgramAux (f + 5)
      [⟨.Match, a⟩, ⟨.OpenParen, b⟩, ⟨.OpenParen, c⟩, ⟨.Literal ls, d⟩,
       ⟨.Comparator cm, e⟩, ⟨.Number rs, g⟩, ⟨.CloseParen, h⟩, ⟨.CloseParen, i⟩] =
      .ok [.Match (.Condition cm (.Literal ls) (.Number rs))] := rfl

/-- Tokenization of `match((L CMP R))` for identifier lexemes `L`, `R`. -/
theorem tokenizeAux_inputC1_ident (f : Nat) (l r : List Char) (cm : Mongorph.Comparator)
    (hl : identLex l = true) (hlm : l ≠ "match".data)
    (hr : identLex r = true) (hrm : r ≠ "match".data) :
    tokenizeAux (f + 11) (inputC1 l cm r) 0 =
      some [⟨.Match, 0⟩, ⟨.OpenParen, 5⟩, ⟨.OpenParen, 6⟩, ⟨.Literal (String.mk l), 7⟩,
        ⟨.Comparator cm, 7 + l.length + 1⟩,
        ⟨.Literal (String.mk r), 7 + l.length + 1 + (cmpLex cm).length + 1⟩,
        ⟨.CloseParen, 7 + l.length + 1 + (cmpLex cm).length + 1 + r.length⟩,
        ⟨.CloseParen, 7 + l.length + 1 + (cmpLex cm).length + 1 + r.length + 1⟩] := by
  have e1 : tokenizeAux (f + 11) (inputC1 l cm r) 0 =
      Option.map (List.cons ⟨.Match, 0⟩) (Option.map (List.cons ⟨.OpenParen, 5⟩)
        (Option.map (List.cons ⟨.OpenParen, 6⟩)
          (tokenizeAux (f + 7 + 1)
            (l ++ ' ' :: (cmpLex cm ++ ' ' :: (r ++ [')', ')']))) 7))) := rfl
  have e2 := tokenizeAux_ident_step (f + 7) l
    (' ' :: (cmpLex cm ++ ' ' :: (r ++ [')', ')']))) 7 hl hlm
    (by intro d hd; simp at hd; subst hd; decide)
  have e3 : tokenizeAux (f + 7) (' ' :: (cmpLex cm ++ ' ' :: (r ++ [')', ')'])))
      (7 + l.length) =
      Option.map (List.cons ⟨.Comparator cm, 7 + l.length + 1⟩)
        (tokenizeAux (f + 3 + 1) (r ++ [')', ')'])
          (7 + l.length + 1 + (cmpLex cm).length + 1)) := by
    cases cm <;> rfl
  have e4 := tokenizeAux_ident_step (f + 3) r [')', ')']
    (7 + l.length + 1 + (cmpLex cm).length + 1) hr hrm
    (by intro d hd; simp at hd; subst hd; decide)
  have e5 : tokenizeAux (f + 3) [')', ')']
      (7 + l.length + 1 + (cmpLex cm).length + 1 + r.length) =
      some [⟨.CloseParen, 7 + l.length + 1 + (cmpLex cm).length + 1 + r.length⟩,
        ⟨.CloseParen, 7 + l.length + 1 + (cmpLex cm).length + 1 + r.length + 1⟩] := by
    rfl
  rw [e1, e2, e3, e4, e5]
  rfl

/-- Tokenization of `match((L CMP R))` for an identifier lexeme `L` and
a numeric lexeme `R`. -/
theorem tokenizeAux_inputC1_num (f : Nat) (l r : List Char) (cm : Mongorph.Comparator)
    (hl : identLex l = true) (hlm : l ≠ "match".data) (hr : numLex r = true) :
    tokenizeAux (f + 11) (inputC1 l cm r) 0 =
      some [⟨.Match, 0⟩, ⟨.OpenParen, 5⟩, ⟨.OpenParen, 6⟩, ⟨.Literal (String.mk l), 7⟩,
        ⟨.Comparator cm, 7 + l.length + 1⟩,
        ⟨.Number (String.mk r), 7 + l.length + 1 + (cmpLex cm).length + 1⟩,
        ⟨.CloseParen, 7 + l.length + 1 + (cmpLex cm).length + 1 + r.length⟩,
        ⟨.CloseParen, 7 + l.length + 1 + (cmpLex cm).length + 1 + r.length + 1⟩] := by
  have e1 : tokenizeAux (f + 11) (inputC1 l cm r) 0 =
      Option.map (List.cons ⟨.Match, 0⟩) (Option.map (List.cons ⟨.OpenParen, 5⟩)
        (Option.map (List.cons ⟨.OpenParen, 6⟩)
          (tokenizeAux (f + 7 + 1)
            (l ++ ' ' :: (cmpLex cm ++ ' ' :: (r ++ [')', ')']))) 7))) := rfl
  have e2 := tokenizeAux_ident_step (f + 7) l
    (' ' :: (cmpLex cm ++ ' ' :: (r ++ [')', ')']))) 7 hl hlm
    (by intro d hd; simp at hd; subst hd; decide)
  have e3 : tokenizeAux (f + 7) (' ' :: (cmpLex cm ++ ' ' :: (r ++ [')', ')'])))
      (7 + l.length) =
      Option.map (List.cons ⟨.Comparator cm, 7 + l.length + 1⟩)
        (tokenizeAux (f + 3 + 1) (r ++ [')', ')'])
          (7 + l.length + 1 + (cmpLex cm).length + 1)) := by
    cases cm <;> rfl
  have e4 := tokenizeAux_num_step (f + 3) r [')', ')']
    (7 + l.length + 1 + (cmpLex cm).length + 1) hr
    (by intro d hd; simp at hd; subst hd; decide)
  have e5 : tokenizeAux (f + 3) [')', ')']
      (7 + l.length + 1 + (cmpLex cm).length + 1 + r.length) =
      some [⟨.CloseParen, 7 + l.length + 1 + (cmpLex cm).length + 1 + r.length⟩,
        ⟨.CloseParen, 7 + l.length + 1 + (cmpLex cm).length + 1 + r.length + 1⟩] := by
    rfl
  rw [e1, e2, e3, e4, e5]
  rfl

/-- Length of the `match((L CMP R))` source text. -/
theorem inputC1_length (l r : List Char) (cm : Mongorph.Comparator) :
    (inputC1 l cm r).length = (l.length + (cmpLex cm).length + r.length) + 11 := by
  simp [inputC1]
  omega

/-- Claim C1 as amended: for every well-formed input of the form
`match((IDENT CMP IDENT))` or `match((IDENT CMP NUMBER))` — with the
comparison bracketed, as the grammar requires — and any of the six
comparators, the parse entry point succeeds and yields exactly one
`Match` node wrapping a `Condition` whose comparator, left `Literal`
identifier, and right value are exactly those appearing in the input. -/
theorem claim_C1 (l r : List Char) (cm : Mongorph.Comparator)
    (hl : identLex l = true) (hlm : l ≠ "match".data) :
    (identLex r = true → r ≠ "match".data →
      build (inputC1 l cm r) =
        .ok [.Match (.Condition cm (.Literal (String.mk l)) (.Literal (String.mk r)))]) ∧
    (numLex r = true →
      build (inputC1 l cm r) =
        .ok [.Match (.Condition cm (.Literal (String.mk l)) (.Number (String.mk r)))]) := by
  constructor
  · intro hr hrm
    unfold build tokenize
    rw [inputC1_length l r cm]
    rw [tokenizeAux_inputC1_ident (l.length + (cmpLex cm).length + r.length) l r cm hl hlm hr hrm]
    show parseProgramAux (pFuel _) _ = _
    rw [show pFuel
      [⟨.Match, 0⟩, ⟨.OpenParen, 5⟩, ⟨.OpenParen, 6⟩, ⟨.Literal (String.mk l), 7⟩,
        ⟨.Comparator cm, 7 + l.length + 1⟩,
        ⟨.Literal (String.mk r), 7 + l.length + 1 + (cmpLex cm).length + 1⟩,
        ⟨.CloseParen, 7 + l.length + 1 + (cmpLex cm).length + 1 + r.length⟩,
        ⟨.CloseParen, 7 + l.length + 1 + (cmpLex cm).length + 1 + r.length + 1⟩] =
      22 + 5 from rfl]
    exact parse_tokensC1_ident 22 _ _ _ _ _ _ _ _ _ _ cm
  · intro hr
    unfold build tokenize
    rw [inputC1_length l r cm]
    rw [tokenizeAux_inputC1_num (l.length + (cmpLex cm).length + r.length) l r cm hl hlm hr]
    show parseProgramAux (pFuel _) _ = _
    rw [show pFuel
      [⟨.Match, 0⟩, ⟨.OpenParen, 5⟩, ⟨.OpenParen, 6⟩, ⟨.Literal (String.mk l), 7⟩,
        ⟨.Comparator cm, 7 + l.length + 1⟩,
        ⟨.Number (String.mk r), 7 + l.length + 1 + (cmpLex cm).length + 1⟩,
        ⟨.CloseParen, 7 + l.length + 1 + (cmpLex cm).length + 1 + r.length⟩,
        ⟨.CloseParen, 7 + l.length + 1 + (cmpLex cm).length + 1 + r.length + 1⟩] =
      22 + 5 from rfl]
    exact parse_tokensC1_num 22 _ _ _ _ _ _ _ _ _ _ cm

/-- Claim C1, witness: `match((branch == CSE))` parses to exactly one
`Match(Condition EQ branch CSE)` node. -/
theorem claim_C1_w :
    build (inputC1 "branch".data .EQ "CSE".data) =
      .ok [.Match (.Condition .EQ (.Literal "branch") (.Literal "CSE"))] :=
  (claim_C1 "branch".data "CSE".data .EQ (by decide) (by decide)).1 (by decide) (by decide)

/-- Branch inversion for one scanner step, synchronized with the
drop-freeness scan: a step either panics, silently drops a lone `=`/`!`
without advancing the offset (and the scan is not drop-free there),
skips whitespace advancing the offset by the characters consumed, or
emits one token whose lexeme is exactly the consumed span, recorded at
the current offset, advancing the offset by the lexeme length. -/
theorem tokenizeStep_cases (next : List Char → Nat → Option (List Token))
    (dnext : List Char → Bool) (c : Char) (cs : List Char) (idx : Nat) :
    tokenizeStep next c cs idx = none
    ∨ (tokenizeStep next c cs idx = next cs idx ∧ dropFreeStep dnext c cs = false)
    ∨ (∃ pre cs2, c :: cs = pre ++ cs2 ∧ 0 < pre.length ∧
        tokenizeStep next c cs idx = next cs2 (idx + pre.length) ∧
        dropFreeStep dnext c cs = dnext cs2)
    ∨ (∃ tok cs2, c :: cs = lexChars tok.ty ++ cs2 ∧
        tokenizeStep next c cs idx =
          Option.map (List.cons tok) (next cs2 (idx + (lexChars tok.ty).length)) ∧
        dropFreeStep dnext c cs = dnext cs2 ∧ tok.idx = idx) := by
  by_cases hws : wsChar c = true
  · refine Or.inr (Or.inr (Or.inl ⟨[c], cs, rfl, by simp, ?_, ?_⟩))
    · unfold tokenizeStep
      rw [if_pos hws]
      try rfl
    · unfold dropFreeStep
      rw [if_pos hws]
      try rfl
  · -- c is not whitespace
    by_cases hgt : c = '>'
    · subst hgt
      rcases cs with _ | ⟨d, cs2⟩
      · refine Or.inr (Or.inr (Or.inr ⟨⟨.Comparator .GT, idx⟩, [], rfl, ?_, ?_, rfl⟩))
        · unfold tokenizeStep
          rw [if_neg hws, if_pos rfl]
          try rfl
        · unfold dropFreeStep
          rw [if_neg hws, if_pos rfl]
          try rfl
      · by_cases hd : d = '='
        · subst hd
          refine Or.inr (Or.inr (Or.inr ⟨⟨.Comparator .GTE, idx⟩, cs2, rfl, ?_, ?_, rfl⟩))
          · unfold tokenizeStep
            rw [if_neg hws, if_pos rfl]
            try rfl
          · unfold dropFreeStep
            rw [if_neg hws, if_pos rfl]
            try rfl
        · refine Or.inr (Or.inr (Or.inr ⟨⟨.Comparator .GT, idx⟩, d :: cs2, rfl, ?_, ?_, rfl⟩))
          · unfold tokenizeStep
            rw [if_neg hws, if_pos rfl]
            split
            · rename_i cs3 heq
              rw [List.cons.injEq] at heq
              exact absurd heq.1 hd
            · rfl
          · unfold dropFreeStep
            rw [if_neg hws, if_pos rfl]
            split
            · rename_i cs3 heq
              rw [List.cons.injEq] at heq
              exact absurd heq.1 hd
            · rfl
    · -- c not >
      by_cases hlt : c = '<'
      · subst hlt
        rcases cs with _ | ⟨d, cs2⟩
        · refine Or.inr (Or.inr (Or.inr ⟨⟨.Comparator .LT, idx⟩, [], rfl, ?_, ?_, rfl⟩))
          · unfold tokenizeStep
            rw [if_neg hws, if_neg hgt, if_pos rfl]
            try rfl
          · unfold dropFreeStep
            rw [if_neg hws, if_neg hgt, if_pos rfl]
            try rfl
        · by_cases hd : d = '='
          · subst hd
            refine Or.inr (Or.inr (Or.inr ⟨⟨.Comparator .LTE, idx⟩, cs2, rfl, ?_, ?_, rfl⟩))
            · unfold tokenizeStep
              rw [if_neg hws, if_neg hgt, if_pos rfl]
              try rfl
            · unfold dropFreeStep
              rw [if_neg hws, if_neg hgt, if_pos rfl]
              try rfl
          · refine Or.inr (Or.inr (Or.inr ⟨⟨.Comparator .LT, idx⟩, d :: cs2, rfl, ?_, ?_, rfl⟩))
            · unfold tokenizeStep
              rw [if_neg hws, if_neg hgt, if_pos rfl]
              split
              · rename_i cs3 heq
                rw [List.cons.injEq] at heq
                exact absurd heq.1 hd
              · rfl
            · unfold dropFreeStep
              rw [if_neg hws, if_neg hgt, if_pos rfl]
              split
              · rename_i cs3 heq
                rw [List.cons.injEq] at heq
                exact absurd heq.1 hd
              · rfl
      · -- c not <
        by_cases heqc : c = '='
        · subst heqc
          rcases cs with _ | ⟨d, cs2⟩
          · refine Or.inr (Or.inl ⟨?_, ?_⟩)
            · unfold tokenizeStep
              rw [if_neg hws, if_neg hgt, if_neg hlt, if_pos rfl]
              try rfl
            · unfold dropFreeStep
              rw [if_neg hws, if_neg hgt, if_neg hlt, if_pos rfl]
              try rfl
          · by_cases hd : d = '='
            · subst hd
              refine Or.inr (Or.inr (Or.inr ⟨⟨.Comparator .EQ, idx⟩, cs2, rfl, ?_, ?_, rfl⟩))
              · unfold tokenizeStep
                rw [if_neg hws, if_neg hgt, if_neg hlt, if_pos rfl]
                try rfl
              · unfold dropFreeStep
                rw [if_neg hws, if_neg hgt, if_neg hlt, if_pos rfl]
                try rfl
            · refine Or.inr (Or.inl ⟨?_, ?_⟩)
              · unfold tokenizeStep
                rw [if_neg hws, if_neg hgt, if_neg hlt, if_pos rfl]
                split
                · rename_i cs3 heq
                  rw [List.cons.injEq] at heq
                  exact absurd heq.1 hd
                · rfl
              · unfold dropFreeStep
                rw [if_neg hws, if_neg hgt, if_neg hlt, if_pos rfl]
                split
                · rename_i cs3 heq
                  rw [List.cons.injEq] at heq
                  exact absurd heq.1 hd
                · rfl
        · -- c not =
          by_cases hbang : c = '!'
          · subst hbang
            rcases cs with _ | ⟨d, cs2⟩
            · refine Or.inr (Or.inl ⟨?_, ?_⟩)
              · unfold tokenizeStep
                rw [if_neg hws, if_neg hgt, if_neg hlt, if_neg heqc, if_pos rfl]
                try rfl
              · unfold dropFreeStep
                rw [if_neg hws, if_neg hgt, if_neg hlt, if_neg heqc, if_pos rfl]
                try rfl
            · by_cases hd : d = '='
              · subst hd
                refine Or.inr (Or.inr (Or.inr ⟨⟨.Comparator .NEQ, idx⟩, cs2, rfl, ?_, ?_, rfl⟩))
                · unfold tokenizeStep
                  rw [if_neg hws, if_neg hgt, if_neg hlt, if_neg heqc, if_pos rfl]
                  try rfl
                · unfold dropFreeStep
                  rw [if_neg hws, if_neg hgt, if_neg hlt, if_neg heqc, if_pos rfl]
                  try rfl
              · refine Or.inr (Or.inl ⟨?_, ?_⟩)
                · unfold tokenizeStep
                  rw [if_neg hws, if_neg hgt, if_neg hlt, if_neg heqc, if_pos rfl]
                  split
                  · rename_i cs3 heq
                    rw [List.cons.injEq] at heq
                    exact absurd heq.1 hd
                  · rfl
                · unfold dropFreeStep
                  rw [if_neg hws, if_neg hgt, if_neg hlt, if_neg heqc, if_pos rfl]
                  split
                  · rename_i cs3 heq
                    rw [List.cons.injEq] at heq
                    exact absurd heq.1 hd
                  · rfl
          · -- c not !
            by_cases hamp : c = '&'
            · subst hamp
              refine Or.inr (Or.inr (Or.inr ⟨⟨.ConditionalOperator .AND, idx⟩, cs, rfl, ?_, ?_, rfl⟩))
              · unfold tokenizeStep
                rw [if_neg hws, if_neg hgt, if_neg hlt, if_neg heqc, if_neg hbang, if_pos rfl]
                try rfl
              · unfold dropFreeStep
                rw [if_neg hws, if_neg hgt, if_neg hlt, if_neg heqc, if_neg hbang, if_pos rfl]
                try rfl
            · -- next
              by_cases hpipe : c = '|'
              · subst hpipe
                refine Or.inr (Or.inr (Or.inr ⟨⟨.ConditionalOperator .OR, idx⟩, cs, rfl, ?_, ?_, rfl⟩))
                · unfold tokenizeStep
                  rw [if_neg hws, if_neg hgt, if_neg hlt, if_neg heqc, if_neg hbang, if_neg hamp, if_pos rfl]
                  try rfl
                · unfold dropFreeStep
                  rw [if_neg hws, if_neg hgt, if_neg hlt, if_neg heqc, if_neg hbang, if_neg hamp, if_pos rfl]
                  try rfl
              · -- next
                by_cases hop : c = '('
                · subst hop
                  refine Or.inr (Or.inr (Or.inr ⟨⟨.OpenParen, idx⟩, cs, rfl, ?_, ?_, rfl⟩))
                  · unfold tokenizeStep
                    rw [if_neg hws, if_neg hgt, if_neg hlt, if_neg heqc, if_neg hbang, if_neg hamp, if_neg hpipe, if_pos rfl]
                    try rfl
                  · unfold dropFreeStep
                    rw [if_neg hws, if_neg hgt, if_neg hlt, if_neg heqc, if_neg hbang, if_neg hamp, if_neg hpipe, if_pos rfl]
                    try rfl
                · -- next
                  by_cases hcp : c = ')'
                  · subst hcp
                    refine Or.inr (Or.inr (Or.inr ⟨⟨.CloseParen, idx⟩, cs, rfl, ?_, ?_, rfl⟩))
                    · unfold tokenizeStep
                      rw [if_neg hws, if_neg hgt, if_neg hlt, if_neg heqc, if_neg hbang, if_neg hamp, if_neg hpipe, if_neg hop, if_pos rfl]
                      try rfl
                    · unfold dropFreeStep
                      rw [if_neg hws, if_neg hgt, if_neg hlt, if_neg heqc, if_neg hbang, if_neg hamp, if_neg hpipe, if_neg hop, if_pos rfl]
                      try rfl
                  · -- next
                    by_cases hdot : c = '.'
                    · subst hdot
                      refine Or.inr (Or.inr (Or.inr ⟨⟨.Dot, idx⟩, cs, rfl, ?_, ?_, rfl⟩))
                      · unfold tokenizeStep
                        rw [if_neg hws, if_neg hgt, if_neg hlt, if_neg heqc, if_neg hbang, if_neg hamp, if_neg hpipe, if_neg hop, if_neg hcp, if_pos rfl]
                        try rfl
                      · unfold dropFreeStep
                        rw [if_neg hws, if_neg hgt, if_neg hlt, if_neg heqc, if_neg hbang, if_neg hamp, if_neg hpipe, if_neg hop, if_neg hcp, if_pos rfl]
                        try rfl
                    · -- next
                      by_cases hid : identStartChar c = true
                      · by_cases hmt : (c :: cs).takeWhile identChar = "match".data
                        · refine Or.inr (Or.inr (Or.inr ⟨⟨.Match, idx⟩, (c :: cs).dropWhile identChar, ?_, ?_, ?_, rfl⟩))
                          · rw [show lexChars TokenT.Match = "match".data from rfl, ← hmt,
                              List.takeWhile_append_dropWhile]
                          try rfl
                          · unfold tokenizeStep
                            rw [if_neg hws, if_neg hgt, if_neg hlt, if_neg heqc, if_neg hbang, if_neg hamp, if_neg hpipe, if_neg hop, if_neg hcp, if_neg hdot, if_pos hid, if_pos hmt]
                            try rfl
                          · unfold dropFreeStep
                            rw [if_neg hws, if_neg hgt, if_neg hlt, if_neg heqc, if_neg hbang, if_neg hamp, if_neg hpipe, if_neg hop, if_neg hcp, if_neg hdot, if_pos hid]
                            try rfl
                        · refine Or.inr (Or.inr (Or.inr ⟨⟨.Literal (String.mk ((c :: cs).takeWhile identChar)), idx⟩,
                            (c :: cs).dropWhile identChar, ?_, ?_, ?_, rfl⟩))
                          · exact (List.takeWhile_append_dropWhile identChar (c :: cs)).symm
                          · unfold tokenizeStep
                            rw [if_neg hws, if_neg hgt, if_neg hlt, if_neg heqc, if_neg hbang, if_neg hamp, if_neg hpipe, if_neg hop, if_neg hcp, if_neg hdot, if_pos hid, if_neg hmt]
                            try rfl
                          · unfold dropFreeStep
                            rw [if_neg hws, if_neg hgt, if_neg hlt, if_neg heqc, if_neg hbang, if_neg hamp, if_neg hpipe, if_neg hop, if_neg hcp, if_neg hdot, if_pos hid]
                            try rfl
                      · by_cases hdg : c.isDigit = true
                        · by_cases hcnt : ((c :: cs).takeWhile numChar).count '.' ≤ 1
                          · refine Or.inr (Or.inr (Or.inr ⟨⟨.Number (String.mk ((c :: cs).takeWhile numChar)), idx⟩,
                              (c :: cs).dropWhile numChar, ?_, ?_, ?_, rfl⟩))
                            · exact (List.takeWhile_append_dropWhile numChar (c :: cs)).symm
                            · unfold tokenizeStep
                              rw [if_neg hws, if_neg hgt, if_neg hlt, if_neg heqc, if_neg hbang, if_neg hamp, if_neg hpipe, if_neg hop, if_neg hcp, if_neg hdot, if_neg hid, if_pos hdg, if_pos hcnt]
                              try rfl
                            · unfold dropFreeStep
                              rw [if_neg hws, if_neg hgt, if_neg hlt, if_neg heqc, if_neg hbang, if_neg hamp, if_neg hpipe, if_neg hop, if_neg hcp, if_neg hdot, if_neg hid, if_pos hdg]
                              try rfl
                          · refine Or.inl ?_
                            unfold tokenizeStep
                            rw [if_neg hws, if_neg hgt, if_neg hlt, if_neg heqc, if_neg hbang, if_neg hamp, if_neg hpipe, if_neg hop, if_neg hcp, if_neg hdot, if_neg hid, if_pos hdg, if_neg hcnt]
                            try rfl
                        · refine Or.inl ?_
                          unfold tokenizeStep
                          rw [if_neg hws, if_neg hgt, if_neg hlt, if_neg heqc, if_neg hbang, if_neg hamp, if_neg hpipe, if_neg hop, if_neg hcp, if_neg hdot, if_neg hid, if_neg hdg]
                          try rfl


/-- Every token the scanner produces has an offset at least the running
offset it started from. -/
theorem tokenizeAux_lb (f : Nat) :
    ∀ cs idx ts, tokenizeAux f cs idx = some ts → ∀ t ∈ ts, idx ≤ t.idx := by
  induction f with
  | zero =>
    intro cs idx ts h t ht
    rcases cs with _ | ⟨c, cs2⟩
    · simp only [tokenizeAux, Option.some.injEq] at h
      subst h
      exact absurd ht (List.not_mem_nil t)
    · exact Option.noConfusion h
  | succ f ih =>
    intro cs idx ts h t ht
    rcases cs with _ | ⟨c, cs2⟩
    · simp only [tokenizeAux, Option.some.injEq] at h
      subst h
      exact absurd ht (List.not_mem_nil t)
    · rw [tokenizeAux] at h
      rcases tokenizeStep_cases (tokenizeAux f) (fun x => true) c cs2 idx with
        hc | ⟨hc, -⟩ | ⟨pre, cs3, -, hlen, hc, -⟩ | ⟨tok, cs3, -, hc, -, hidx⟩
      · rw [hc] at h
        exact Option.noConfusion h
      · rw [hc] at h
        exact ih _ _ _ h t ht
      · rw [hc] at h
        have hr := ih _ _ _ h t ht
        omega
      · rw [hc] at h
        obtain ⟨ts2, hts2, rfl⟩ := Option.map_eq_some'.mp h
        rcases List.mem_cons.mp ht with rfl | ht2
        · omega
        · have hr := ih _ _ _ hts2 t ht2
          omega

/-- The offsets recorded in the token sequence are non-decreasing. -/
theorem tokenizeAux_chain (f : Nat) :
    ∀ cs idx ts, tokenizeAux f cs idx = some ts →
      List.Chain' (fun a b => a.idx ≤ b.idx) ts := by
  induction f with
  | zero =>
    intro cs idx ts h
    rcases cs with _ | ⟨c, cs2⟩
    · simp only [tokenizeAux, Option.some.injEq] at h
      subst h
      exact List.chain'_nil
    · exact Option.noConfusion h
  | succ f ih =>
    intro cs idx ts h
    rcases cs with _ | ⟨c, cs2⟩
    · simp only [tokenizeAux, Option.some.injEq] at h
      subst h
      exact List.chain'_nil
    · rw [tokenizeAux] at h
      rcases tokenizeStep_cases (tokenizeAux f) (fun x => true) c cs2 idx with
        hc | ⟨hc, -⟩ | ⟨pre, cs3, -, hlen, hc, -⟩ | ⟨tok, cs3, -, hc, -, hidx⟩
      · rw [hc] at h
        exact Option.noConfusion h
      · rw [hc] at h
        exact ih _ _ _ h
      · rw [hc] at h
        exact ih _ _ _ h
      · rw [hc] at h
        obtain ⟨ts2, hts2, rfl⟩ := Option.map_eq_some'.mp h
        rw [List.chain'_cons']
        refine ⟨fun y hy => ?_, ih _ _ _ hts2⟩
        have hy2 := tokenizeAux_lb f _ _ _ hts2 y (List.mem_of_mem_head? hy)
        omega

/-- On a drop-free scan, every produced token's offset points at the
first character of its lexeme in the remaining input. -/
theorem tokenizeAux_lexeme (f : Nat) :
    ∀ cs idx ts, dropFreeAux f cs = true → tokenizeAux f cs idx = some ts →
      ∀ t ∈ ts, (cs.drop (t.idx - idx)).take (lexChars t.ty).length = lexChars t.ty := by
  induction f with
  | zero =>
    intro cs idx ts hdf h t ht
    rcases cs with _ | ⟨c, cs2⟩
    · simp only [tokenizeAux, Option.some.injEq] at h
      subst h
      exact absurd ht (List.not_mem_nil t)
    · exact Option.noConfusion h
  | succ f ih =>
    intro cs idx ts hdf h t ht
    rcases cs with _ | ⟨c, cs2⟩
    · simp only [tokenizeAux, Option.some.injEq] at h
      subst h
      exact absurd ht (List.not_mem_nil t)
    · rw [tokenizeAux] at h
      rw [dropFreeAux] at hdf
      rcases tokenizeStep_cases (tokenizeAux f) (dropFreeAux f) c cs2 idx with
        hc | ⟨hc, hdneg⟩ | ⟨pre, cs3, hsplit, hlen, hc, hdeq⟩ |
        ⟨tok, cs3, hsplit, hc, hdeq, hidx⟩
      · rw [hc] at h
        exact Option.noConfusion h
      · rw [hdneg] at hdf
        exact Bool.noConfusion hdf
      · rw [hc] at h
        rw [hdeq] at hdf
        have hlb := tokenizeAux_lb f _ _ _ h t ht
        have hih := ih _ _ _ hdf h t ht
        rw [hsplit]
        have harith : t.idx - idx = pre.length + (t.idx - (idx + pre.length)) := by omega
        rw [harith, List.drop_append]
        exact hih
      · rw [hc] at h
        rw [hdeq] at hdf
        obtain ⟨ts2, hts2, rfl⟩ := Option.map_eq_some'.mp h
        rcases List.mem_cons.mp ht with rfl | ht2
        · rw [hsplit, hidx, Nat.sub_self, List.drop_zero, List.take_left]
        · have hlb := tokenizeAux_lb f _ _ _ hts2 t ht2
          have hih := ih _ _ _ hdf hts2 t ht2
          rw [hsplit]
          have harith : t.idx - idx =
              (lexChars tok.ty).length + (t.idx - (idx + (lexChars tok.ty).length)) := by
            omega
          rw [harith, List.drop_append]
          exact hih

/-- Claim C5 as amended: for every source the lexer tokenizes without a
fatal failure, the recorded offsets are non-decreasing; and provided the
scan never silently drops a lone `=` or `!` (the drop branch leaves the
offset behind), each token's offset is exactly the position of the first
source character of its lexeme. -/
theorem claim_C5 (cs : List Char) (ts : List Token) (h : tokenize cs = some ts) :
    idxSorted ts ∧ (dropFree cs = true → ∀ t ∈ ts, lexAt cs t) := by
  constructor
  · exact tokenizeAux_chain cs.length cs 0 ts h
  · intro hdf t ht
    have hl := tokenizeAux_lexeme cs.length cs 0 ts hdf h t ht
    simpa [lexAt] using hl

/-- Claim C5, counterexample: on the input `=a` the lone `=` is consumed
without advancing the offset, so the `Literal a` token records offset 0
while its lexeme starts at position 1 — the offset does not point at the
first character of the lexeme. -/
theorem claim_C5_cex :
    tokenize "=a".data = some [⟨.Literal "a", 0⟩] ∧
      ¬ lexAt "=a".data ⟨.Literal "a", 0⟩ := by
  constructor
  · rfl
  · unfold lexAt
    decide

/-- Claim C5, witness: the tokens of `a >= 1` have non-decreasing
offsets, each pointing at its lexeme. -/
theorem claim_C5_w :
    idxSorted [⟨.Literal "a", 0⟩, ⟨.Comparator .GTE, 2⟩, ⟨.Number "1", 5⟩] ∧
      (dropFree "a >= 1".data = true →
        ∀ t ∈ [(⟨.Literal "a", 0⟩ : Token), ⟨.Comparator .GTE, 2⟩, ⟨.Number "1", 5⟩],
          lexAt "a >= 1".data t) :=
  claim_C5 "a >= 1".data [⟨.Literal "a", 0⟩, ⟨.Comparator .GTE, 2⟩, ⟨.Number "1", 5⟩] rfl

end Mongorph
